import Mathlib

/-
Verification of the LSH banding index in `lsh/cache.py` (class `Cache`).

Modelling conventions:

* A fingerprint is a `List Nat` of MinHash values.

* `Cache.bins_` executes `random.shuffle(fingerprint)` IN PLACE and then
  splits the shuffled list into `num_bands` chunks with `np.array_split`.
  Randomness is modelled by passing each shuffle outcome explicitly as an
  argument (a list that is a permutation of the fingerprint being banded).
  Because the shuffle is in place, after an operation the caller's list and
  any aliasing store entry hold the shuffled contents; the embedding threads
  this through the fingerprint store.

* Bucket keys are Python's `hash(tuple(band))`.  For tuples of (non-negative,
  < 2^61-1 after the integer hash) numbers CPython uses the deterministic
  xxHash-style algorithm of `tuplehash` in Objects/tupleobject.c, embedded
  below as `pyHashTuple` over `Nat` with explicit `% 2^64` arithmetic.

* Each band's bucket table is a `defaultdict(set)`: an insertion-ordered
  association list from bucket key to a `Finset Nat` of document ids.
  Plain indexing `d[k]` on a missing key INSERTS an empty set; `dTouch`
  models this side effect, `dGet` the value that is read.

* Python `set` iteration order (used by `itertools.combinations` in
  `get_all_duplicates`) is implementation defined; it is modelled by an
  explicit enumeration function `ord : Finset Nat → List Nat` which a
  theorem may constrain to enumerate exactly the elements of the set.

* Failure (KeyError / ValueError) is modelled with `Except`; `remove_id`
  returns the partially mutated state inside `Except.error` because the
  Python exception propagates after the earlier mutations happened.

* The MinHash hasher is external: its `jaccard` estimator is an arbitrary
  function parameter and its memo (cleared via `fingerprint.cache_clear()`
  in `Cache.clear`) is an abstract `memo` component of the state.
-/

namespace LSH

/-! ### CPython hashing of int tuples -/

/-- Modulus of CPython's integer hash (the Mersenne prime 2^61 - 1). -/
def PYMOD : Nat := 2 ^ 61 - 1

/-- CPython `hash(n)` for a non-negative int `n`. -/
def pyHashInt (n : Nat) : Nat := n % PYMOD

/-- Rotate a 64-bit value left by 31 bits (`_PyHASH_XXROTATE`). -/
def rotl31 (x : Nat) : Nat := (x % 2 ^ 33) * 2 ^ 31 + x / 2 ^ 33

/-- One accumulation step of CPython's tuple hash. -/
def hashStep (acc lane : Nat) : Nat :=
  rotl31 ((acc + lane * 14029467366897019727) % 2 ^ 64) * 11400714785074694791 % 2 ^ 64

/-- CPython `hash(tuple(l))` for a tuple of non-negative ints
(`tuplehash` in Objects/tupleobject.c, 64-bit build). -/
def pyHashTuple (l : List Nat) : Nat :=
  let acc := l.foldl (fun a v => hashStep a (pyHashInt v)) 2870177450012600261
  let acc2 := (acc + Nat.xor l.length (Nat.xor 2870177450012600261 3527539)) % 2 ^ 64
  if acc2 = 2 ^ 64 - 1 then 1546275796 else acc2

/-! ### `defaultdict(set)` bucket tables -/

/-- One band's bucket table: insertion-ordered map, bucket key → set of doc ids. -/
abbrev Bins := List (Nat × Finset Nat)

/-- Dictionary lookup (`k in d` / raw entry access). -/
def dLookup : Bins → Nat → Option (Finset Nat)
  | [], _ => none
  | (k, v) :: rest, key => if k = key then some v else dLookup rest key

/-- The value `d[k]` evaluates to (empty set when the key is absent). -/
def dGet (b : Bins) (k : Nat) : Finset Nat := (dLookup b k).getD ∅

/-- Side effect of evaluating `d[k]` on a `defaultdict(set)`:
a missing key is inserted (at the end) with an empty set. -/
def dTouch (b : Bins) (k : Nat) : Bins :=
  match dLookup b k with
  | some _ => b
  | none => b ++ [(k, ∅)]

/-- `d[k] = v`, updating in place or appending a new entry. -/
def dSet : Bins → Nat → Finset Nat → Bins
  | [], key, v => [(key, v)]
  | (k, w) :: rest, key, v =>
    if k = key then (k, v) :: rest else (k, w) :: dSet rest key v

/-- `d[bucket_id].add(doc_id)` (defaultdict access plus `set.add`). -/
def dAdd (b : Bins) (k : Nat) (did : Nat) : Bins := dSet b k (insert did (dGet b k))

/-! ### The fingerprint store (a Python dict) -/

/-- `Cache.fingerprints`: insertion-ordered map, doc id → stored fingerprint. -/
abbrev FpStore := List (Nat × List Nat)

/-- Dict lookup `fingerprints[doc_id]`. -/
def fpLookup : FpStore → Nat → Option (List Nat)
  | [], _ => none
  | (k, v) :: rest, key => if k = key then some v else fpLookup rest key

/-- Dict assignment `fingerprints[doc_id] = f`. -/
def fpInsert : FpStore → Nat → List Nat → FpStore
  | [], did, f => [(did, f)]
  | (k, v) :: rest, did, f =>
    if k = did then (k, f) :: rest else (k, v) :: fpInsert rest did f

/-- Dict deletion `del fingerprints[doc_id]`. -/
def fpErase : FpStore → Nat → FpStore
  | [], _ => []
  | (k, v) :: rest, did => if k = did then rest else (k, v) :: fpErase rest did

/-! ### The cache state -/

/-- State of a `Cache` object: the per-band bucket tables, `num_bands`,
the fingerprint store, and the external hasher's memo (abstract). -/
structure Cache where
  bins : List Bins
  numBands : Nat
  fingerprints : FpStore
  memo : List (List Nat)

/-- `Cache.__init__`: `num_bands` empty bucket tables and an empty store
(the `num_seeds % num_bands == 0` assertion concerns the external hasher). -/
def mkCache (numBands : Nat) : Cache :=
  { bins := List.replicate numBands [], numBands := numBands,
    fingerprints := [], memo := [] }

/-- Read `self.bins[i]`. -/
def getBin (bs : List Bins) (i : Nat) : Bins := bs.getD i []

/-- Mutate `self.bins[i]` by `f`. -/
def updBin (bs : List Bins) (i : Nat) (f : Bins → Bins) : List Bins :=
  bs.set i (f (getBin bs i))

/-! ### Banding: `np.array_split` over the shuffled fingerprint -/

/-- Chunk sizes used by `np.array_split(l, n)`: the first `l.length % n`
chunks get `l.length / n + 1` elements, the rest `l.length / n`. -/
def splitSizes (len n : Nat) : List Nat :=
  (List.range n).map (fun i => if i < len % n then len / n + 1 else len / n)

/-- Cut a list into consecutive chunks of the given sizes. -/
def chunksBySizes : List Nat → List Nat → List (List Nat)
  | [], _ => []
  | sz :: rest, l => l.take sz :: chunksBySizes rest (l.drop sz)

/-- `np.array_split(l, n)` for a 1-d integer array. -/
def arraySplit (l : List Nat) (n : Nat) : List (List Nat) :=
  chunksBySizes (splitSizes l.length n) l

/-- The `(band index, bucket key)` pairs produced by iterating `bins_`,
with band indices counted from `i`. -/
def keysFrom : Nat → List (List Nat) → List (Nat × Nat)
  | _, [] => []
  | i, b :: rest => (i, pyHashTuple b) :: keysFrom (i + 1) rest

/-! ### Insertion and query passes over the bands -/

/-- Loop body of `add_fingerprint`: for each band chunk, insert `did` into
the addressed bucket of that band's table. -/
def insertPass (bs : List Bins) (i : Nat) (chunks : List (List Nat)) (did : Nat) :
    List Bins :=
  match chunks with
  | [] => bs
  | b :: rest =>
    insertPass (updBin bs i (fun bb => dAdd bb (pyHashTuple b) did)) (i + 1) rest did

/-- Collision-check loop of `add_fingerprint_strict_dedup`: returns whether some
addressed bucket already holds an id, together with the bucket tables after the
defaultdict accesses performed up to the early `break`. -/
def checkPass (bs : List Bins) (i : Nat) (chunks : List (List Nat)) :
    Bool × List Bins :=
  match chunks with
  | [] => (false, bs)
  | b :: rest =>
    let k := pyHashTuple b
    let bs1 := updBin bs i (fun bb => dTouch bb k)
    if 1 ≤ (dGet (getBin bs1 i) k).card then (true, bs1)
    else checkPass bs1 (i + 1) rest

/-- Collision-count loop of `add_fingerprint_lenient_dedup` (`break` once the
count reaches the fixed `collision_threshold = 4`). -/
def countPass (bs : List Bins) (i cnt : Nat) (chunks : List (List Nat)) :
    Nat × List Bins :=
  match chunks with
  | [] => (cnt, bs)
  | b :: rest =>
    let k := pyHashTuple b
    let bs1 := updBin bs i (fun bb => dTouch bb k)
    if 1 ≤ (dGet (getBin bs1 i) k).card then
      if 4 ≤ cnt + 1 then (cnt + 1, bs1)
      else countPass bs1 (i + 1) (cnt + 1) rest
    else countPass bs1 (i + 1) cnt rest

/-- Candidate-collection loop of `get_duplicates_of`
(`candidates.update(self.bins[bin_i][bucket_id])`). -/
def queryPass (bs : List Bins) (i : Nat) (acc : Finset Nat)
    (chunks : List (List Nat)) : Finset Nat × List Bins :=
  match chunks with
  | [] => (acc, bs)
  | b :: rest =>
    let k := pyHashTuple b
    let bs1 := updBin bs i (fun bb => dTouch bb k)
    queryPass bs1 (i + 1) (acc ∪ dGet (getBin bs1 i) k) rest

/-- Removal loop of `remove_id` (`self.bins[bin_i][bucket_id].remove(doc_id)`);
`set.remove` raises `KeyError` when the id is absent, so the loop returns the
partially mutated tables inside `Except.error`. -/
def removeLoop (did : Nat) (bs : List Bins) (i : Nat)
    (chunks : List (List Nat)) : Except (List Bins) (List Bins) :=
  match chunks with
  | [] => .ok bs
  | b :: rest =>
    let k := pyHashTuple b
    let bs1 := updBin bs i (fun bb => dTouch bb k)
    if did ∈ dGet (getBin bs1 i) k then
      removeLoop did
        (updBin bs1 i (fun bb => dSet bb k ((dGet bb k).erase did))) (i + 1) rest
    else .error bs1

/-! ### The public operations of `Cache` -/

/-- `add_fingerprint(fingerprint, doc_id)`.  `s` is the outcome of the in-place
`random.shuffle`; since the store aliases the caller's list, the stored
fingerprint is the shuffled contents `s`. -/
def addFingerprint (c : Cache) (s : List Nat) (did : Nat) : Cache :=
  { c with fingerprints := fpInsert c.fingerprints did s,
           bins := insertPass c.bins 0 (arraySplit s c.numBands) did }

/-- `add_fingerprint_strict_dedup(fingerprint, doc_id)`.  `s1` is the shuffle
used by the collision-check pass, `s2` the independent shuffle of the insert
pass (which runs only when no band collided).  The store entry aliases the
caller's list, hence holds the last shuffle applied. -/
def addFingerprintStrictDedup (c : Cache) (s1 s2 : List Nat) (did : Nat) : Cache :=
  let c1 : Cache := { c with fingerprints := fpInsert c.fingerprints did s1 }
  let res := checkPass c1.bins 0 (arraySplit s1 c.numBands)
  if res.1 then { c1 with bins := res.2 }
  else
    { c1 with bins := insertPass res.2 0 (arraySplit s2 c.numBands) did,
              fingerprints := fpInsert c1.fingerprints did s2 }

/-- `add_fingerprint_lenient_dedup(fingerprint, doc_id)` with its fixed
`collision_threshold = 4`. -/
def addFingerprintLenientDedup (c : Cache) (s1 s2 : List Nat) (did : Nat) : Cache :=
  let c1 : Cache := { c with fingerprints := fpInsert c.fingerprints did s1 }
  let res := countPass c1.bins 0 0 (arraySplit s1 c.numBands)
  if res.1 < 4 then
    { c1 with bins := insertPass res.2 0 (arraySplit s2 c.numBands) did,
              fingerprints := fpInsert c1.fingerprints did s2 }
  else { c1 with bins := res.2 }

/-- Result of the collision-check pass of strict dedup, as a predicate of the
starting state (the pass only performs defaultdict accesses). -/
def strictCollides (c : Cache) (s1 : List Nat) : Bool :=
  (checkPass c.bins 0 (arraySplit s1 c.numBands)).1

/-- Final value of the `add_to_cache` counter of lenient dedup. -/
def lenientCount (c : Cache) (s1 : List Nat) : Nat :=
  (countPass c.bins 0 0 (arraySplit s1 c.numBands)).1

/-- Per-band collision flags: whether each band's addressed bucket already
holds at least one id, evaluated against the given tables. -/
def collideFlags (bs : List Bins) (i : Nat) (chunks : List (List Nat)) : List Bool :=
  match chunks with
  | [] => []
  | b :: rest =>
    decide (1 ≤ (dGet (getBin bs i) (pyHashTuple b)).card)
      :: collideFlags bs (i + 1) rest

/-- Number of bands of `s` whose addressed bucket in `c` already holds an id. -/
def bandCollisions (c : Cache) (s : List Nat) : Nat :=
  (collideFlags c.bins 0 (arraySplit s c.numBands)).count true

/-- `get_duplicates_of(doc_id=...)` when `doc_id` is in the store: bands the
stored fingerprint under the fresh shuffle `s` (mutating the aliased store
entry to `s`) and unions the addressed buckets. -/
def getDuplicatesOfById (c : Cache) (did : Nat) (s : List Nat) :
    Option (Finset Nat × Cache) :=
  match fpLookup c.fingerprints did with
  | none => none
  | some _ =>
    let c1 : Cache := { c with fingerprints := fpInsert c.fingerprints did s }
    let res := queryPass c1.bins 0 ∅ (arraySplit s c.numBands)
    some (res.1, { c1 with bins := res.2 })

/-- Candidate set returned by `get_duplicates_of(doc_id=...)`. -/
def candsOfById (c : Cache) (did : Nat) (s : List Nat) : Finset Nat :=
  ((getDuplicatesOfById c did s).map Prod.fst).getD ∅

/-- Cache state after `get_duplicates_of(doc_id=...)`. -/
def stateOfById (c : Cache) (did : Nat) (s : List Nat) : Cache :=
  ((getDuplicatesOfById c did s).map Prod.snd).getD c

/-- `get_duplicates_of(doc=...)`: the document is fingerprinted by the external
hasher and banded under the fresh shuffle `s` (a temporary list, so the store
is not written). -/
def getDuplicatesOfDoc (c : Cache) (s : List Nat) : Finset Nat × Cache :=
  let res := queryPass c.bins 0 ∅ (arraySplit s c.numBands)
  (res.1, { c with bins := res.2 })

/-- `get_duplicates_of(doc, doc_id, min_jaccard=None)` dispatch: a stored
`doc_id` wins, otherwise a supplied document, otherwise `ValueError`.
`doc` stands for the hasher's fingerprint of the document when supplied. -/
def getDuplicatesOf (c : Cache) (doc : Option (List Nat)) (docId : Option Nat)
    (s : List Nat) : Except Unit (Finset Nat × Cache) :=
  match docId with
  | some did =>
    match getDuplicatesOfById c did s with
    | some r => .ok r
    | none =>
      match doc with
      | some _ => .ok (getDuplicatesOfDoc c s)
      | none => .error ()
  | none =>
    match doc with
    | some _ => .ok (getDuplicatesOfDoc c s)
    | none => .error ()

/-- `is_duplicate(doc, doc_id)`: whether `get_duplicates_of` is non-empty. -/
def isDuplicate (c : Cache) (doc : Option (List Nat)) (docId : Option Nat)
    (s : List Nat) : Except Unit (Bool × Cache) :=
  match getDuplicatesOf c doc docId s with
  | .ok (r, c1) => .ok (decide (0 < r.card), c1)
  | .error e => .error e

/-- The `min_jaccard` filter of `get_duplicates_of`: keep the candidates whose
estimated similarity to the (shuffled) query fingerprint strictly exceeds the
threshold; a candidate missing from the store raises `KeyError`. -/
def filterByJaccard (jac : List Nat → List Nat → ℚ) (t : ℚ) (st : FpStore)
    (s : List Nat) (cands : Finset Nat) : Except Unit (Finset Nat) :=
  if ∀ x ∈ cands, (fpLookup st x).isSome then
    .ok (cands.filter (fun x => t < jac s ((fpLookup st x).getD [])))
  else .error ()

/-- `get_duplicates_of(doc_id=..., min_jaccard=t)`: the candidate lookup
followed by the similarity filter against the mutated store. -/
def getDuplicatesOfByIdMinJ (c : Cache) (did : Nat) (s : List Nat)
    (jac : List Nat → List Nat → ℚ) (t : ℚ) :
    Option (Except Unit (Finset Nat) × Cache) :=
  match getDuplicatesOfById c did s with
  | none => none
  | some (cands, c1) => some (filterByJaccard jac t c1.fingerprints s cands, c1)

/-- Loop of `filter_candidates`: look both fingerprints up (KeyError when one
is missing) and keep the pair iff similarity strictly exceeds the threshold. -/
def filterCandidatesGo (jac : List Nat → List Nat → ℚ) (t : ℚ) (st : FpStore) :
    List (Nat × Nat) → Finset (Nat × Nat) → Except Unit (Finset (Nat × Nat))
  | [], acc => .ok acc
  | (a, b) :: rest, acc =>
    match fpLookup st a, fpLookup st b with
    | some fa, some fb =>
      filterCandidatesGo jac t st rest
        (if t < jac fa fb then insert (a, b) acc else acc)
    | _, _ => .error ()

/-- `filter_candidates(candidate_id_pairs, min_jaccard)` (the input set of
pairs is given in its iteration order). -/
def filterCandidates (c : Cache) (jac : List Nat → List Nat → ℚ) (t : ℚ)
    (pairs : List (Nat × Nat)) : Except Unit (Finset (Nat × Nat)) :=
  filterCandidatesGo jac t c.fingerprints pairs ∅

/-- `itertools.combinations(l, 2)`: all ordered pairs `(x, y)` with `x`
occurring strictly before `y` in `l`. -/
def pairs2 : List Nat → List (Nat × Nat)
  | [] => []
  | x :: xs => xs.map (fun y => (x, y)) ++ pairs2 xs

/-- Pairs contributed by one band's table in `get_all_duplicates`: every bucket
with more than one id contributes `itertools.combinations(bucket, 2)` under
the set-enumeration order `ord`. -/
def bucketPairs (ord : Finset Nat → List Nat) (b : Bins) : Finset (Nat × Nat) :=
  b.foldl
    (fun acc kv =>
      acc ∪ (if 1 < kv.2.card then (pairs2 (ord kv.2)).toFinset else ∅)) ∅

/-- `get_all_duplicates(min_jaccard=None)`: union of the pair sets of every
bucket of every band. -/
def getAllDuplicates (c : Cache) (ord : Finset Nat → List Nat) :
    Finset (Nat × Nat) :=
  c.bins.foldl (fun acc b => acc ∪ bucketPairs ord b) ∅

/-- `remove_id(doc_id)`: `KeyError` when the id is not stored; otherwise the
stored fingerprint is re-banded under the fresh shuffle `s` (mutating the
aliased store entry) and the id is removed from each addressed bucket, the
store entry being deleted last.  `Except.error` carries the state at the
point where the uncaught `KeyError` aborted the removal. -/
def removeId (c : Cache) (did : Nat) (s : List Nat) : Except Cache Cache :=
  match fpLookup c.fingerprints did with
  | none => .error c
  | some _ =>
    let c1 : Cache := { c with fingerprints := fpInsert c.fingerprints did s }
    match removeLoop did c1.bins 0 (arraySplit s c.numBands) with
    | .error bs => .error { c1 with bins := bs }
    | .ok bs => .ok { c1 with bins := bs, fingerprints := fpErase c1.fingerprints did }

/-- The state carried by a failing `remove_id` (`none` when it succeeded). -/
def removeErrState : Except Cache Cache → Option Cache
  | .error st => some st
  | .ok _ => none

/-- `clear()`: reset every bucket table and the hasher's memo
(`self.hasher.fingerprint.cache_clear()`); the fingerprint store is kept. -/
def clear (c : Cache) : Cache :=
  { c with bins := List.replicate c.numBands [], memo := [] }

/-- Ascending enumeration of a `Finset Nat`: one concrete legal iteration
order for a Python set. -/
def ordAsc (s : Finset Nat) : List Nat := s.sort (· ≤ ·)

/-- An enumeration function realizing CPython iteration orders in which the
shared elements 0 and 8 of two different buckets appear in opposite relative
order (possible because slot placement depends on the other elements). -/
def ordCex (s : Finset Nat) : List Nat :=
  if s = {0, 1, 8} then [8, 1, 0] else if s = {0, 8} then [0, 8] else ordAsc s

/-- Two-band state with bucket `{0, 8}` in band 0 and `{0, 1, 8}` in band 1. -/
def cacheTwoBuckets : Cache :=
  { bins := [[(7, {0, 8})], [(9, {0, 1, 8})]], numBands := 2,
    fingerprints := [], memo := [] }

/-- One-band state with a single two-element bucket. -/
def cacheOneBucket : Cache :=
  { bins := [[(5, {1, 2})]], numBands := 1, fingerprints := [], memo := [] }

/-- Two-band state where id 0 is stored but present only in band 1's bucket. -/
def cacheHalfRemoved : Cache :=
  { bins := [[], [(pyHashTuple [2], {0})]], numBands := 2,
    fingerprints := [(0, [1, 2])], memo := [] }

/-- One-band state where id 0 is stored but present in no bucket. -/
def cacheDangling : Cache :=
  { bins := [[]], numBands := 1, fingerprints := [(0, [1])], memo := [] }

/-! ### Lemmas: dictionaries and the fingerprint store -/

@[simp]
theorem dGet_nil (k : Nat) : dGet [] k = ∅ := rfl

theorem dGet_append_empty (b : Bins) (k' k : Nat) (h : dLookup b k' = none) :
    dGet (b ++ [(k', ∅)]) k = dGet b k := by
  induction b with
  | nil =>
    by_cases hk : k' = k <;> simp [dGet, dLookup, hk]
  | cons hd tl ih =>
    obtain ⟨k0, v0⟩ := hd
    simp only [dLookup] at h
    by_cases h0 : k0 = k'
    · simp [h0] at h
    · simp only [h0, if_false] at h
      by_cases hk : k0 = k
      · simp [dGet, dLookup, hk]
      · simp only [List.cons_append, dGet, dLookup, hk, if_false]
        exact ih h

@[simp]
theorem dGet_dTouch (b : Bins) (k' k : Nat) : dGet (dTouch b k') k = dGet b k := by
  unfold dTouch
  cases h : dLookup b k' with
  | some v => rfl
  | none => exact dGet_append_empty b k' k h

theorem dLookup_dSet (b : Bins) (key k : Nat) (v : Finset Nat) :
    dLookup (dSet b key v) k = if key = k then some v else dLookup b k := by
  induction b with
  | nil =>
    by_cases hk : key = k <;> simp [dSet, dLookup, hk]
  | cons hd tl ih =>
    obtain ⟨k0, v0⟩ := hd
    by_cases h0 : k0 = key
    · subst h0
      by_cases hk : k0 = k <;> simp [dSet, dLookup, hk]
    · by_cases hk : k0 = k
      · subst hk
        have hks : ¬key = k0 := fun h => h0 h.symm
        simp [dSet, dLookup, h0, hks]
      · simp [dSet, dLookup, h0, hk, ih]

theorem dGet_dSet (b : Bins) (key k : Nat) (v : Finset Nat) :
    dGet (dSet b key v) k = if key = k then v else dGet b k := by
  unfold dGet
  rw [dLookup_dSet]
  by_cases hk : key = k <;> simp [hk]

theorem dGet_dAdd (b : Bins) (key k did : Nat) :
    dGet (dAdd b key did) k = if key = k then insert did (dGet b key) else dGet b k := by
  unfold dAdd
  rw [dGet_dSet]

theorem fpLookup_fpInsert (l : FpStore) (did : Nat) (f : List Nat) (k : Nat) :
    fpLookup (fpInsert l did f) k = if did = k then some f else fpLookup l k := by
  induction l with
  | nil =>
    by_cases hk : did = k <;> simp [fpInsert, fpLookup, hk]
  | cons hd tl ih =>
    obtain ⟨k0, v0⟩ := hd
    by_cases h0 : k0 = did
    · subst h0
      by_cases hk : k0 = k <;> simp [fpInsert, fpLookup, hk]
    · by_cases hk : k0 = k
      · subst hk
        have hks : ¬did = k0 := fun h => h0 h.symm
        simp [fpInsert, fpLookup, h0, hks]
      · simp [fpInsert, fpLookup, h0, hk, ih]

theorem fpInsert_fpInsert (l : FpStore) (did : Nat) (f g : List Nat) :
    fpInsert (fpInsert l did f) did g = fpInsert l did g := by
  induction l with
  | nil => simp [fpInsert]
  | cons hd tl ih =>
    obtain ⟨k0, v0⟩ := hd
    by_cases h0 : k0 = did <;> simp [fpInsert, h0, ih]

theorem fpErase_fpInsert (l : FpStore) (did : Nat) (f : List Nat)
    (h : fpLookup l did = none) : fpErase (fpInsert l did f) did = l := by
  induction l with
  | nil => simp [fpInsert, fpErase]
  | cons hd tl ih =>
    obtain ⟨k0, v0⟩ := hd
    simp only [fpLookup] at h
    by_cases h0 : k0 = did
    · simp [h0] at h
    · simp only [h0, if_false] at h
      simp [fpInsert, fpErase, h0, ih h]

/-! ### Lemmas: the band table list -/

theorem getBin_set (bs : List Bins) (i j : Nat) (x : Bins) :
    getBin (bs.set i x) j = if i = j ∧ i < bs.length then x else getBin bs j := by
  induction bs generalizing i j with
  | nil => simp [getBin]
  | cons hd tl ih =>
    cases i with
    | zero =>
      cases j with
      | zero => simp [getBin]
      | succ j => simp [getBin, List.set]
    | succ i =>
      cases j with
      | zero => simp [getBin, List.set]
      | succ j =>
        simp only [List.set, getBin, List.getD_cons_succ, List.length_cons]
        rw [show (tl.set i x).getD j [] = getBin (tl.set i x) j from rfl, ih i j]
        by_cases hij : i = j
        · subst hij
          by_cases hlt : i < tl.length
          · have h1 : i + 1 < tl.length + 1 := by omega
            simp [hlt, h1, getBin]
          · have h1 : ¬i + 1 < tl.length + 1 := by omega
            simp [hlt, h1, getBin]
        · have h1 : ¬i + 1 = j + 1 := by omega
          simp [hij, h1, getBin]

theorem getBin_updBin (bs : List Bins) (i j : Nat) (f : Bins → Bins) :
    getBin (updBin bs i f) j =
      if i = j ∧ i < bs.length then f (getBin bs i) else getBin bs j := by
  unfold updBin
  exact getBin_set bs i j _

@[simp]
theorem length_updBin (bs : List Bins) (i : Nat) (f : Bins → Bins) :
    (updBin bs i f).length = bs.length := by
  simp [updBin]

@[simp]
theorem dGet_touchUpd (bs : List Bins) (i k' j k : Nat) :
    dGet (getBin (updBin bs i (fun bb => dTouch bb k')) j) k = dGet (getBin bs j) k := by
  rw [getBin_updBin]
  by_cases h : i = j ∧ i < bs.length
  · rw [if_pos h]
    obtain ⟨rfl, _⟩ := h
    exact dGet_dTouch _ _ _
  · rw [if_neg h]

/-! ### Lemmas: band keys and banding -/

theorem mem_keysFrom_le (p : Nat × Nat) (i : Nat) (chunks : List (List Nat))
    (h : p ∈ keysFrom i chunks) : i ≤ p.1 := by
  induction chunks generalizing i with
  | nil => simp [keysFrom] at h
  | cons b rest ih =>
    simp only [keysFrom, List.mem_cons] at h
    rcases h with h | h
    · subst h; exact Nat.le_refl _
    · have := ih (i + 1) h
      omega

theorem mem_keysFrom_lt (p : Nat × Nat) (i : Nat) (chunks : List (List Nat))
    (h : p ∈ keysFrom i chunks) : p.1 < i + chunks.length := by
  induction chunks generalizing i with
  | nil => simp [keysFrom] at h
  | cons b rest ih =>
    simp only [keysFrom, List.mem_cons] at h
    rcases h with h | h
    · subst h; simp
    · have := ih (i + 1) h
      simp only [List.length_cons]
      omega

theorem mem_keysFrom_getD (chunks : List (List Nat)) (i j : Nat)
    (h : j < chunks.length) :
    (i + j, pyHashTuple (chunks.getD j [])) ∈ keysFrom i chunks := by
  induction chunks generalizing i j with
  | nil => simp at h
  | cons b rest ih =>
    cases j with
    | zero => simp [keysFrom]
    | succ j =>
      simp only [keysFrom, List.mem_cons, List.getD_cons_succ]
      right
      rw [show i + (j + 1) = (i + 1) + j by omega]
      exact ih (i + 1) j (by simpa using h)

theorem length_chunksBySizes (sizes : List Nat) (l : List Nat) :
    (chunksBySizes sizes l).length = sizes.length := by
  induction sizes generalizing l with
  | nil => simp [chunksBySizes]
  | cons sz rest ih => simp [chunksBySizes, ih]

theorem length_arraySplit (l : List Nat) (n : Nat) : (arraySplit l n).length = n := by
  simp [arraySplit, length_chunksBySizes, splitSizes]

/-! ### Lemmas: the insertion pass -/

theorem length_insertPass (chunks : List (List Nat)) (bs : List Bins) (i did : Nat) :
    (insertPass bs i chunks did).length = bs.length := by
  induction chunks generalizing bs i with
  | nil => simp [insertPass]
  | cons b rest ih => simp [insertPass, ih]

theorem dGet_insertPass (chunks : List (List Nat)) (bs : List Bins) (i did j k : Nat) :
    dGet (getBin (insertPass bs i chunks did) j) k =
      if (j, k) ∈ keysFrom i chunks ∧ j < bs.length
      then insert did (dGet (getBin bs j) k) else dGet (getBin bs j) k := by
  induction chunks generalizing bs i with
  | nil => simp [insertPass, keysFrom]
  | cons b rest ih =>
    rw [insertPass, ih]
    simp only [length_updBin, keysFrom, List.mem_cons]
    by_cases hmem : (j, k) ∈ keysFrom (i + 1) rest
    · have hge : i + 1 ≤ j := mem_keysFrom_le _ _ _ hmem
      have hne : ¬(i = j ∧ i < bs.length) := fun hc => by omega
      have hD : dGet (getBin (updBin bs i fun bb => dAdd bb (pyHashTuple b) did) j) k
          = dGet (getBin bs j) k := by
        rw [getBin_updBin, if_neg hne]
      rw [hD]
      by_cases hj : j < bs.length
      · simp [hmem, hj]
      · simp [hmem, hj]
    · by_cases hhead : (j, k) = (i, pyHashTuple b)
      · rw [Prod.mk.injEq] at hhead
        obtain ⟨rfl, rfl⟩ := hhead
        by_cases hj : j < bs.length
        · have hD : dGet (getBin (updBin bs j fun bb => dAdd bb (pyHashTuple b) did) j)
              (pyHashTuple b) = insert did (dGet (getBin bs j) (pyHashTuple b)) := by
            rw [getBin_updBin, if_pos ⟨rfl, hj⟩, dGet_dAdd, if_pos rfl]
          simp [hmem, hj, hD]
        · have hD : dGet (getBin (updBin bs j fun bb => dAdd bb (pyHashTuple b) did) j)
              (pyHashTuple b) = dGet (getBin bs j) (pyHashTuple b) := by
            rw [getBin_updBin, if_neg (fun hc => hj hc.2)]
          simp [hmem, hj, hD]
      · have hD : dGet (getBin (updBin bs i fun bb => dAdd bb (pyHashTuple b) did) j) k
            = dGet (getBin bs j) k := by
          rw [getBin_updBin]
          by_cases hij : i = j ∧ i < bs.length
          · rw [if_pos hij]
            obtain ⟨rfl, _⟩ := hij
            rw [dGet_dAdd]
            have hk : ¬pyHashTuple b = k := fun hk => hhead (by rw [hk])
            rw [if_neg hk]
          · rw [if_neg hij]
        rw [hD]
        simp [hmem, hhead]

theorem mem_insertPass_self (chunks : List (List Nat)) (bs : List Bins)
    (i did j k : Nat) (hm : (j, k) ∈ keysFrom i chunks) (hj : j < bs.length) :
    did ∈ dGet (getBin (insertPass bs i chunks did) j) k := by
  rw [dGet_insertPass, if_pos ⟨hm, hj⟩]
  exact Finset.mem_insert_self did _

/-! ### Lemmas: the query pass -/

theorem queryPass_fst (chunks : List (List Nat)) (bs : List Bins) (i : Nat)
    (acc : Finset Nat) (x : Nat) :
    x ∈ (queryPass bs i acc chunks).1 ↔
      x ∈ acc ∨ ∃ p ∈ keysFrom i chunks, x ∈ dGet (getBin bs p.1) p.2 := by
  induction chunks generalizing bs i acc with
  | nil => simp [queryPass, keysFrom]
  | cons b rest ih =>
    rw [queryPass, ih]
    simp only [dGet_touchUpd, keysFrom, List.mem_cons, Finset.mem_union]
    constructor
    · rintro ((hx | hx) | ⟨p, hp, hx⟩)
      · exact Or.inl hx
      · exact Or.inr ⟨(i, pyHashTuple b), Or.inl rfl, hx⟩
      · exact Or.inr ⟨p, Or.inr hp, hx⟩
    · rintro (hx | ⟨p, rfl | hp, hx⟩)
      · exact Or.inl (Or.inl hx)
      · exact Or.inl (Or.inr hx)
      · exact Or.inr ⟨p, hp, hx⟩

theorem queryPass_snd_dGet (chunks : List (List Nat)) (bs : List Bins)
    (i : Nat) (acc : Finset Nat) (j k : Nat) :
    dGet (getBin (queryPass bs i acc chunks).2 j) k = dGet (getBin bs j) k := by
  induction chunks generalizing bs i acc with
  | nil => simp [queryPass]
  | cons b rest ih =>
    rw [queryPass, ih]
    exact dGet_touchUpd bs i _ j k

theorem queryPass_snd_length (chunks : List (List Nat)) (bs : List Bins)
    (i : Nat) (acc : Finset Nat) :
    (queryPass bs i acc chunks).2.length = bs.length := by
  induction chunks generalizing bs i acc with
  | nil => simp [queryPass]
  | cons b rest ih =>
    rw [queryPass, ih]
    simp

/-! ### Lemmas: the dedup check and count passes -/

theorem checkPass_snd_dGet (chunks : List (List Nat)) (bs : List Bins) (i j k : Nat) :
    dGet (getBin (checkPass bs i chunks).2 j) k = dGet (getBin bs j) k := by
  induction chunks generalizing bs i with
  | nil => simp [checkPass]
  | cons b rest ih =>
    rw [checkPass]
    split
    · exact dGet_touchUpd bs i _ j k
    · rw [ih]
      exact dGet_touchUpd bs i _ j k

theorem checkPass_snd_length (chunks : List (List Nat)) (bs : List Bins) (i : Nat) :
    (checkPass bs i chunks).2.length = bs.length := by
  induction chunks generalizing bs i with
  | nil => simp [checkPass]
  | cons b rest ih =>
    rw [checkPass]
    split
    · simp
    · rw [ih]
      simp

theorem checkPass_fst (chunks : List (List Nat)) (bs : List Bins) (i : Nat) :
    (checkPass bs i chunks).1 = true ↔
      ∃ p ∈ keysFrom i chunks, (dGet (getBin bs p.1) p.2).Nonempty := by
  induction chunks generalizing bs i with
  | nil => simp [checkPass, keysFrom]
  | cons b rest ih =>
    rw [checkPass]
    have htouch : dGet (getBin (updBin bs i fun bb => dTouch bb (pyHashTuple b)) i)
        (pyHashTuple b) = dGet (getBin bs i) (pyHashTuple b) := dGet_touchUpd bs i _ i _
    by_cases hc : 1 ≤ (dGet (getBin bs i) (pyHashTuple b)).card
    · rw [if_pos (by rw [htouch]; exact hc)]
      simp only [keysFrom, List.mem_cons]
      constructor
      · intro _
        exact ⟨(i, pyHashTuple b), Or.inl rfl, Finset.one_le_card.mp hc⟩
      · intro _
        trivial
    · rw [if_neg (by rw [htouch]; exact hc)]
      rw [ih]
      simp only [dGet_touchUpd, keysFrom, List.mem_cons]
      constructor
      · rintro ⟨p, hp, hne⟩
        exact ⟨p, Or.inr hp, hne⟩
      · rintro ⟨p, rfl | hp, hne⟩
        · exact absurd (Finset.one_le_card.mpr hne) hc
        · exact ⟨p, hp, hne⟩

theorem collideFlags_congr (chunks : List (List Nat)) (bs bs' : List Bins) (i : Nat)
    (h : ∀ j k, dGet (getBin bs' j) k = dGet (getBin bs j) k) :
    collideFlags bs' i chunks = collideFlags bs i chunks := by
  induction chunks generalizing i with
  | nil => simp [collideFlags]
  | cons b rest ih => simp [collideFlags, h, ih]

theorem countPass_snd_dGet (chunks : List (List Nat)) (bs : List Bins)
    (i cnt j k : Nat) :
    dGet (getBin (countPass bs i cnt chunks).2 j) k = dGet (getBin bs j) k := by
  induction chunks generalizing bs i cnt with
  | nil => simp [countPass]
  | cons b rest ih =>
    rw [countPass]
    split
    · split
      · exact dGet_touchUpd bs i _ j k
      · rw [ih]
        exact dGet_touchUpd bs i _ j k
    · rw [ih]
      exact dGet_touchUpd bs i _ j k

theorem countPass_snd_length (chunks : List (List Nat)) (bs : List Bins)
    (i cnt : Nat) :
    (countPass bs i cnt chunks).2.length = bs.length := by
  induction chunks generalizing bs i cnt with
  | nil => simp [countPass]
  | cons b rest ih =>
    rw [countPass]
    split
    · split
      · simp
      · rw [ih]
        simp
    · rw [ih]
      simp

theorem countPass_fst (chunks : List (List Nat)) (bs : List Bins) (i cnt : Nat)
    (h : cnt < 4) :
    (countPass bs i cnt chunks).1 =
      min (cnt + (collideFlags bs i chunks).count true) 4 := by
  induction chunks generalizing bs i cnt with
  | nil =>
    simp only [countPass, collideFlags, List.count_nil]
    omega
  | cons b rest ih =>
    rw [countPass]
    have htouch : ∀ j k, dGet (getBin (updBin bs i fun bb => dTouch bb (pyHashTuple b)) j) k
        = dGet (getBin bs j) k := fun j k => dGet_touchUpd bs i _ j k
    have hflags : collideFlags (updBin bs i fun bb => dTouch bb (pyHashTuple b)) (i + 1) rest
        = collideFlags bs (i + 1) rest := collideFlags_congr _ _ _ _ htouch
    by_cases hc : 1 ≤ (dGet (getBin bs i) (pyHashTuple b)).card
    · rw [if_pos (by rw [htouch]; exact hc)]
      by_cases h4 : 4 ≤ cnt + 1
      · rw [if_pos h4]
        have hcount : (collideFlags bs i (b :: rest)).count true
            = (collideFlags bs (i + 1) rest).count true + 1 := by
          simp [collideFlags, hc, List.count_cons]
        rw [hcount]
        omega
      · rw [if_neg h4, ih _ _ _ (by omega), hflags]
        have hcount : (collideFlags bs i (b :: rest)).count true
            = (collideFlags bs (i + 1) rest).count true + 1 := by
          simp [collideFlags, hc, List.count_cons]
        rw [hcount]
        omega
    · rw [if_neg (by rw [htouch]; exact hc), ih _ _ _ h, hflags]
      have hcount : (collideFlags bs i (b :: rest)).count true
          = (collideFlags bs (i + 1) rest).count true := by
        simp [collideFlags, hc, List.count_cons]
      rw [hcount]

/-! ### Lemmas: the removal loop -/

theorem removeLoop_ok (chunks : List (List Nat)) (bs : List Bins) (i did : Nat)
    (h : ∀ p ∈ keysFrom i chunks, p.1 < bs.length ∧ did ∈ dGet (getBin bs p.1) p.2) :
    ∃ final, removeLoop did bs i chunks = .ok final ∧ final.length = bs.length ∧
      ∀ j k, dGet (getBin final j) k =
        if (j, k) ∈ keysFrom i chunks then (dGet (getBin bs j) k).erase did
        else dGet (getBin bs j) k := by
  induction chunks generalizing bs i with
  | nil => exact ⟨bs, rfl, rfl, by simp [keysFrom]⟩
  | cons b rest ih =>
    obtain ⟨hlen0, hmem0⟩ := h (i, pyHashTuple b) (by simp [keysFrom])
    rw [removeLoop]
    have htouch : ∀ j k,
        dGet (getBin (updBin bs i fun bb => dTouch bb (pyHashTuple b)) j) k
          = dGet (getBin bs j) k := fun j k => dGet_touchUpd bs i _ j k
    rw [if_pos (by rw [htouch]; exact hmem0)]
    have hbs2get : ∀ j k,
        dGet (getBin (updBin (updBin bs i fun bb => dTouch bb (pyHashTuple b)) i
          fun bb => dSet bb (pyHashTuple b) ((dGet bb (pyHashTuple b)).erase did)) j) k =
        if j = i ∧ k = pyHashTuple b
        then (dGet (getBin bs j) k).erase did else dGet (getBin bs j) k := by
      intro j k
      rw [getBin_updBin]
      by_cases hij : i = j ∧ i < (updBin bs i fun bb => dTouch bb (pyHashTuple b)).length
      · rw [if_pos hij]
        obtain ⟨rfl, hlt⟩ := hij
        rw [dGet_dSet]
        by_cases hk : pyHashTuple b = k
        · subst hk
          simp [htouch]
        · have hne : ¬(i = i ∧ k = pyHashTuple b) := fun hc => hk hc.2.symm
          rw [if_neg hk, if_neg hne]
          exact htouch i k
      · rw [if_neg hij]
        have hji : ¬(j = i ∧ k = pyHashTuple b) := by
          rintro ⟨rfl, _⟩
          exact hij ⟨rfl, by simpa using hlen0⟩
        rw [if_neg hji]
        exact htouch j k
    have hrest : ∀ p ∈ keysFrom (i + 1) rest,
        p.1 < (updBin (updBin bs i fun bb => dTouch bb (pyHashTuple b)) i
          fun bb => dSet bb (pyHashTuple b) ((dGet bb (pyHashTuple b)).erase did)).length ∧
        did ∈ dGet (getBin (updBin (updBin bs i fun bb => dTouch bb (pyHashTuple b)) i
          fun bb => dSet bb (pyHashTuple b) ((dGet bb (pyHashTuple b)).erase did)) p.1) p.2 := by
      intro p hp
      obtain ⟨hl, hm⟩ := h p (List.mem_cons_of_mem _ hp)
      have hge : i + 1 ≤ p.1 := mem_keysFrom_le p (i + 1) rest hp
      refine ⟨by simpa using hl, ?_⟩
      rw [hbs2get]
      have hne : ¬(p.1 = i ∧ p.2 = pyHashTuple b) := fun hc => by omega
      rw [if_neg hne]
      exact hm
    obtain ⟨final, hrun, hflen, hfget⟩ := ih _ (i + 1) hrest
    refine ⟨final, hrun, by simpa using hflen, ?_⟩
    intro j k
    rw [hfget j k]
    simp only [keysFrom, List.mem_cons]
    by_cases hmem : (j, k) ∈ keysFrom (i + 1) rest
    · have hge : i + 1 ≤ j := by simpa using mem_keysFrom_le _ _ _ hmem
      have hne : ¬(j = i ∧ k = pyHashTuple b) := fun hc => by omega
      rw [hbs2get, if_neg hne, if_pos (Or.inr hmem), if_pos hmem]
    · by_cases hhead : (j, k) = (i, pyHashTuple b)
      · rw [Prod.mk.injEq] at hhead
        obtain ⟨rfl, rfl⟩ := hhead
        rw [if_neg hmem, hbs2get, if_pos ⟨rfl, rfl⟩, if_pos (Or.inl rfl)]
      · rw [if_neg hmem, hbs2get]
        have hne : ¬(j = i ∧ k = pyHashTuple b) := by
          rintro ⟨rfl, rfl⟩
          exact hhead rfl
        rw [if_neg hne, if_neg (by rintro (hc | hc) <;> [exact hhead hc; exact hmem hc])]

/-! ### Lemmas: assorted structure -/

theorem getBin_replicate (n i : Nat) : getBin (List.replicate n ([] : Bins)) i = [] := by
  induction n generalizing i with
  | zero => simp [getBin]
  | succ n ih =>
    cases i with
    | zero => simp [getBin]
    | succ i =>
      simp only [List.replicate, getBin, List.getD_cons_succ]
      exact ih i

theorem mkCache_bucket_empty (n did j k : Nat) :
    did ∉ dGet (getBin (mkCache n).bins j) k := by
  show did ∉ dGet (getBin (List.replicate n []) j) k
  rw [getBin_replicate]
  simp

theorem mem_foldl_union {α β : Type} [DecidableEq β] (g : α → Finset β)
    (L : List α) (acc : Finset β) (x : β) :
    x ∈ L.foldl (fun a e => a ∪ g e) acc ↔ x ∈ acc ∨ ∃ e ∈ L, x ∈ g e := by
  induction L generalizing acc with
  | nil => simp
  | cons e rest ih =>
    rw [List.foldl_cons, ih]
    simp only [Finset.mem_union, List.mem_cons]
    constructor
    · rintro ((hx | hx) | ⟨e', he', hx⟩)
      · exact Or.inl hx
      · exact Or.inr ⟨e, Or.inl rfl, hx⟩
      · exact Or.inr ⟨e', Or.inr he', hx⟩
    · rintro (hx | ⟨e', rfl | he', hx⟩)
      · exact Or.inl (Or.inl hx)
      · exact Or.inl (Or.inr hx)
      · exact Or.inr ⟨e', he', hx⟩

theorem mem_pairs2 (l : List Nat) (x y : Nat) (h : (x, y) ∈ pairs2 l) :
    x ∈ l ∧ y ∈ l := by
  induction l with
  | nil => simp [pairs2] at h
  | cons a rest ih =>
    simp only [pairs2, List.mem_append, List.mem_map] at h
    rcases h with ⟨y', hy', heq⟩ | h
    · rw [Prod.mk.injEq] at heq
      obtain ⟨rfl, rfl⟩ := heq
      exact ⟨List.mem_cons_self _ _, List.mem_cons_of_mem _ hy'⟩
    · obtain ⟨hx, hy⟩ := ih h
      exact ⟨List.mem_cons_of_mem _ hx, List.mem_cons_of_mem _ hy⟩

theorem pairs2_ne (l : List Nat) (hl : l.Nodup) (x y : Nat)
    (h : (x, y) ∈ pairs2 l) : x ≠ y := by
  induction l with
  | nil => simp [pairs2] at h
  | cons a rest ih =>
    rw [List.nodup_cons] at hl
    simp only [pairs2, List.mem_append, List.mem_map] at h
    rcases h with ⟨y', hy', heq⟩ | h
    · rw [Prod.mk.injEq] at heq
      obtain ⟨rfl, rfl⟩ := heq
      exact fun hxy => hl.1 (hxy ▸ hy')
    · exact ih hl.2 h

theorem pairs2_total (l : List Nat) (x y : Nat) (hx : x ∈ l) (hy : y ∈ l)
    (hxy : x ≠ y) : (x, y) ∈ pairs2 l ∨ (y, x) ∈ pairs2 l := by
  induction l with
  | nil => simp at hx
  | cons a rest ih =>
    rcases List.mem_cons.mp hx with rfl | hx'
    · rcases List.mem_cons.mp hy with rfl | hy'
      · exact absurd rfl hxy
      · left
        simp only [pairs2, List.mem_append, List.mem_map]
        exact Or.inl ⟨y, hy', rfl⟩
    · rcases List.mem_cons.mp hy with rfl | hy'
      · right
        simp only [pairs2, List.mem_append, List.mem_map]
        exact Or.inl ⟨x, hx', rfl⟩
      · rcases ih hx' hy' with h | h
        · left
          simp only [pairs2, List.mem_append]
          exact Or.inr h
        · right
          simp only [pairs2, List.mem_append]
          exact Or.inr h

theorem ordAsc_spec (s : Finset Nat) :
    (ordAsc s).Nodup ∧ ∀ x : Nat, x ∈ ordAsc s ↔ x ∈ s :=
  ⟨Finset.sort_nodup _ s, fun _ => Finset.mem_sort _⟩

theorem ordCex_spec (s : Finset Nat) :
    (ordCex s).Nodup ∧ ∀ x : Nat, x ∈ ordCex s ↔ x ∈ s := by
  rw [ordCex]
  by_cases h1 : s = {0, 1, 8}
  · subst h1
    rw [if_pos rfl]
    refine ⟨by decide, fun x => ?_⟩
    simp only [List.mem_cons, List.not_mem_nil, or_false, Finset.mem_insert,
      Finset.mem_singleton]
    tauto
  · rw [if_neg h1]
    by_cases h2 : s = {0, 8}
    · subst h2
      rw [if_pos rfl]
      refine ⟨by decide, fun x => ?_⟩
      simp only [List.mem_cons, List.not_mem_nil, or_false, Finset.mem_insert,
        Finset.mem_singleton]
    · rw [if_neg h2]
      exact ordAsc_spec s

theorem getDuplicatesOfById_eq (c : Cache) (did : Nat) (s : List Nat)
    (h : (fpLookup c.fingerprints did).isSome = true) :
    getDuplicatesOfById c did s =
      some (candsOfById c did s, stateOfById c did s) := by
  cases hq : getDuplicatesOfById c did s with
  | none =>
    rw [getDuplicatesOfById] at hq
    cases hl : fpLookup c.fingerprints did with
    | none => rw [hl] at h; simp at h
    | some f => rw [hl] at hq; simp at hq
  | some r =>
    rw [candsOfById, stateOfById, hq]
    rfl

/-! ### Branch characterizations of the dedup insertions -/

theorem strict_fingerprints (c : Cache) (s1 s2 : List Nat) (did : Nat) :
    (addFingerprintStrictDedup c s1 s2 did).fingerprints =
      if (checkPass c.bins 0 (arraySplit s1 c.numBands)).1 = true
      then fpInsert c.fingerprints did s1
      else fpInsert (fpInsert c.fingerprints did s1) did s2 := by
  by_cases hcol : (checkPass c.bins 0 (arraySplit s1 c.numBands)).1 = true <;>
    simp [addFingerprintStrictDedup, hcol]

theorem strict_bins (c : Cache) (s1 s2 : List Nat) (did : Nat) :
    (addFingerprintStrictDedup c s1 s2 did).bins =
      if (checkPass c.bins 0 (arraySplit s1 c.numBands)).1 = true
      then (checkPass c.bins 0 (arraySplit s1 c.numBands)).2
      else insertPass (checkPass c.bins 0 (arraySplit s1 c.numBands)).2 0
        (arraySplit s2 c.numBands) did := by
  by_cases hcol : (checkPass c.bins 0 (arraySplit s1 c.numBands)).1 = true <;>
    simp [addFingerprintStrictDedup, hcol]

theorem lenient_fingerprints (c : Cache) (s1 s2 : List Nat) (did : Nat) :
    (addFingerprintLenientDedup c s1 s2 did).fingerprints =
      if (countPass c.bins 0 0 (arraySplit s1 c.numBands)).1 < 4
      then fpInsert (fpInsert c.fingerprints did s1) did s2
      else fpInsert c.fingerprints did s1 := by
  by_cases hcol : (countPass c.bins 0 0 (arraySplit s1 c.numBands)).1 < 4 <;>
    simp [addFingerprintLenientDedup, hcol]

theorem lenient_bins (c : Cache) (s1 s2 : List Nat) (did : Nat) :
    (addFingerprintLenientDedup c s1 s2 did).bins =
      if (countPass c.bins 0 0 (arraySplit s1 c.numBands)).1 < 4
      then insertPass (countPass c.bins 0 0 (arraySplit s1 c.numBands)).2 0
        (arraySplit s2 c.numBands) did
      else (countPass c.bins 0 0 (arraySplit s1 c.numBands)).2 := by
  by_cases hcol : (countPass c.bins 0 0 (arraySplit s1 c.numBands)).1 < 4 <;>
    simp [addFingerprintLenientDedup, hcol]

/-! ## Claim C9 -/

/-- C9: `clear()` resets all `num_bands` bucket tables to empty and requests the
provider to drop its memoized fingerprint computations, while the Fingerprint
Store mapping is left exactly as it was before the call. -/
theorem C9_clear_resets_bins_keeps_store (c : Cache) :
    (clear c).bins.length = c.numBands ∧
    (∀ j k, dGet (getBin (clear c).bins j) k = ∅) ∧
    (clear c).memo = [] ∧
    (∀ did, fpLookup (clear c).fingerprints did = fpLookup c.fingerprints did) := by
  refine ⟨by simp [clear], fun j k => ?_, rfl, fun did => rfl⟩
  show dGet (getBin (List.replicate c.numBands []) j) k = ∅
  rw [getBin_replicate]
  rfl

/-! ## Claim C1 -/

/-- C1 is false as stated: with `num_seeds = 2` divisible by `num_bands = 2`,
insert fingerprint `[1, 2]` (the in-place shuffle leaving it unchanged) for doc
id 0, then query `get_duplicates_of(doc_id=0)`; the query's fresh in-place
shuffle may reorder the stored fingerprint to `[2, 1]` (a legal permutation),
and then every band addresses a different bucket key than at insertion time, so
the returned candidate set is empty and does not contain 0. -/
theorem C1_counterexample :
    ([2, 1] : List Nat).Perm [1, 2] ∧
    (getDuplicatesOfById (addFingerprint (mkCache 2) [1, 2] 0) 0 [2, 1]).map Prod.fst
      = some (∅ : Finset Nat) := by
  constructor
  · decide
  · decide

/-- C1 (amended): `add_fingerprint` followed by `get_duplicates_of` on the same
doc id returns a set containing the id itself PROVIDED the query-time
re-banding coincides with the insertion-time banding, i.e. the query's shuffle
leaves the stored fingerprint in its stored order.  (The code re-shuffles on
every call, so this holds only for that coincidence of the two shuffles.) -/
theorem C1_amended (c : Cache) (s : List Nat) (did : Nat)
    (hb : c.bins.length = c.numBands) (hn : 0 < c.numBands) :
    did ∈ candsOfById (addFingerprint c s did) did s := by
  have hlook : fpLookup (fpInsert c.fingerprints did s) did = some s := by
    rw [fpLookup_fpInsert]
    simp
  have h0 : 0 < (arraySplit s c.numBands).length := by
    rw [length_arraySplit]
    exact hn
  have hkey : (0, pyHashTuple ((arraySplit s c.numBands).getD 0 []))
      ∈ keysFrom 0 (arraySplit s c.numBands) := by
    simpa using mem_keysFrom_getD (arraySplit s c.numBands) 0 0 h0
  have hmem : did ∈ dGet (getBin (insertPass c.bins 0 (arraySplit s c.numBands) did) 0)
      (pyHashTuple ((arraySplit s c.numBands).getD 0 [])) :=
    mem_insertPass_self _ _ _ _ _ _ hkey (by rw [hb]; exact hn)
  rw [candsOfById]
  simp only [getDuplicatesOfById, hlook, addFingerprint, Option.map_some',
    Option.getD_some]
  rw [queryPass_fst]
  exact Or.inr ⟨_, hkey, hmem⟩

/-- C1 (witness): the amended statement at a concrete input. -/
theorem C1_amended_witness :
    3 ∈ candsOfById (addFingerprint (mkCache 2) [5, 7] 3) 3 [5, 7] :=
  C1_amended (mkCache 2) [5, 7] 3 (by decide) (by decide)

/-! ## Claim C3 -/

/-- C3 is false as stated: the index does not band a copy.  `random.shuffle`
permutes the caller's fingerprint list in place, and the store holds that same
list, so after `add_fingerprint([1, 2], 0)` whose shuffle produced `[2, 1]`
(a legal outcome), the stored fingerprint — and the caller's sequence, which
aliases it — is `[2, 1]`, not the passed-in order `[1, 2]`. -/
theorem C3_counterexample :
    ([2, 1] : List Nat).Perm [1, 2] ∧
    fpLookup (addFingerprint (mkCache 1) [2, 1] 0).fingerprints 0 = some [2, 1] ∧
    ([2, 1] : List Nat) ≠ [1, 2] := by
  refine ⟨by decide, by decide, by decide⟩

/-- C3 (amended): every insertion operation stores (and leaves in the caller's
buffer, which aliases the stored list) some permutation of the fingerprint that
was passed in — the same multiset of values, in shuffled order. -/
theorem C3_amended (c : Cache) (fp s1 s2 : List Nat) (did : Nat)
    (h1 : s1.Perm fp) (h2 : s2.Perm fp) :
    (∃ g, fpLookup (addFingerprint c s1 did).fingerprints did = some g ∧ g.Perm fp) ∧
    (∃ g, fpLookup (addFingerprintStrictDedup c s1 s2 did).fingerprints did = some g
      ∧ g.Perm fp) ∧
    (∃ g, fpLookup (addFingerprintLenientDedup c s1 s2 did).fingerprints did = some g
      ∧ g.Perm fp) := by
  refine ⟨⟨s1, ?_, h1⟩, ?_, ?_⟩
  · show fpLookup (fpInsert c.fingerprints did s1) did = some s1
    rw [fpLookup_fpInsert]
    simp
  · by_cases hcol : (checkPass c.bins 0 (arraySplit s1 c.numBands)).1 = true
    · refine ⟨s1, ?_, h1⟩
      have hfp : (addFingerprintStrictDedup c s1 s2 did).fingerprints
          = fpInsert c.fingerprints did s1 := by
        simp [addFingerprintStrictDedup, hcol]
      rw [hfp, fpLookup_fpInsert]
      simp
    · refine ⟨s2, ?_, h2⟩
      have hfp : (addFingerprintStrictDedup c s1 s2 did).fingerprints
          = fpInsert (fpInsert c.fingerprints did s1) did s2 := by
        simp [addFingerprintStrictDedup, hcol]
      rw [hfp, fpLookup_fpInsert]
      simp
  · by_cases hcol : (countPass c.bins 0 0 (arraySplit s1 c.numBands)).1 < 4
    · refine ⟨s2, ?_, h2⟩
      have hfp : (addFingerprintLenientDedup c s1 s2 did).fingerprints
          = fpInsert (fpInsert c.fingerprints did s1) did s2 := by
        simp [addFingerprintLenientDedup, hcol]
      rw [hfp, fpLookup_fpInsert]
      simp
    · refine ⟨s1, ?_, h1⟩
      have hfp : (addFingerprintLenientDedup c s1 s2 did).fingerprints
          = fpInsert c.fingerprints did s1 := by
        simp [addFingerprintLenientDedup, hcol]
      rw [hfp, fpLookup_fpInsert]
      simp

/-- C3 (witness): the amended statement at a concrete input. -/
theorem C3_amended_witness :
    (∃ g, fpLookup (addFingerprint (mkCache 1) [2, 1] 0).fingerprints 0 = some g
      ∧ g.Perm [1, 2]) ∧
    (∃ g, fpLookup (addFingerprintStrictDedup (mkCache 1) [2, 1] [1, 2] 0).fingerprints 0
      = some g ∧ g.Perm [1, 2]) ∧
    (∃ g, fpLookup (addFingerprintLenientDedup (mkCache 1) [2, 1] [1, 2] 0).fingerprints 0
      = some g ∧ g.Perm [1, 2]) :=
  C3_amended (mkCache 1) [1, 2] [2, 1] [1, 2] 0 (by decide) (by decide)

/-! ## Claim C2 -/

/-- C2 is false as stated: after `add_fingerprint([1, 2], 0)` on an empty
two-band index (insertion shuffle leaving the order unchanged), `remove_id(0)`
re-bands under a fresh in-place shuffle which may produce `[2, 1]`; it then
addresses buckets that do not contain 0, `set.remove` raises `KeyError`, and
the state after the failed removal still holds id 0 in the store (with the
re-shuffled fingerprint), unlike the pre-add state whose store was empty. -/
theorem C2_counterexample :
    ([2, 1] : List Nat).Perm [1, 2] ∧
    fpLookup (mkCache 2).fingerprints 0 = none ∧
    (removeErrState (removeId (addFingerprint (mkCache 2) [1, 2] 0) 0 [2, 1])).map
      (fun st => fpLookup st.fingerprints 0) = some (some [2, 1]) := by
  refine ⟨by decide, by decide, by decide⟩

/-- C2 (amended): if the removal-time re-banding coincides with the
insertion-time banding (the removal shuffle leaves the stored order unchanged),
then `add_fingerprint(f, id)` followed by `remove_id(id)` on an index not
containing `id` succeeds, restores the Fingerprint Store exactly, and leaves
every bucket's membership as before the add — though bucket keys created by
the add may persist mapped to the empty set, exactly as a `defaultdict` keeps
touched keys. -/
theorem C2_amended (c : Cache) (s : List Nat) (did : Nat)
    (hb : c.bins.length = c.numBands)
    (habs : fpLookup c.fingerprints did = none)
    (hbuck : ∀ j k, did ∉ dGet (getBin c.bins j) k) :
    ∃ c', removeId (addFingerprint c s did) did s = .ok c' ∧
      c'.fingerprints = c.fingerprints ∧
      c'.bins.length = c.bins.length ∧
      ∀ j k, dGet (getBin c'.bins j) k = dGet (getBin c.bins j) k := by
  have hlook : fpLookup (fpInsert c.fingerprints did s) did = some s := by
    rw [fpLookup_fpInsert]
    simp
  have hhyp : ∀ p ∈ keysFrom 0 (arraySplit s c.numBands),
      p.1 < (insertPass c.bins 0 (arraySplit s c.numBands) did).length ∧
      did ∈ dGet (getBin (insertPass c.bins 0 (arraySplit s c.numBands) did) p.1) p.2 := by
    intro p hp
    have hlt : p.1 < (arraySplit s c.numBands).length := by
      simpa using mem_keysFrom_lt p 0 (arraySplit s c.numBands) hp
    have hlen : p.1 < c.bins.length := by
      rw [hb]
      rw [length_arraySplit] at hlt
      exact hlt
    exact ⟨by rw [length_insertPass]; exact hlen,
      mem_insertPass_self _ _ _ _ _ _ hp hlen⟩
  obtain ⟨final, hrun, hflen, hfget⟩ :=
    removeLoop_ok (arraySplit s c.numBands) _ 0 did hhyp
  refine ⟨{ bins := final, numBands := c.numBands,
            fingerprints := fpErase (fpInsert (fpInsert c.fingerprints did s) did s) did,
            memo := c.memo }, ?_, ?_, ?_, ?_⟩
  · simp only [removeId, hlook, addFingerprint]
    rw [hrun]
  · show fpErase (fpInsert (fpInsert c.fingerprints did s) did s) did = c.fingerprints
    rw [fpInsert_fpInsert]
    exact fpErase_fpInsert _ _ _ habs
  · show final.length = c.bins.length
    rw [hflen, length_insertPass]
  · intro j k
    show dGet (getBin final j) k = dGet (getBin c.bins j) k
    rw [hfget j k]
    simp only [dGet_insertPass]
    by_cases hmem : (j, k) ∈ keysFrom 0 (arraySplit s c.numBands)
    · have hjlt : j < c.bins.length := by
        have := mem_keysFrom_lt (j, k) 0 (arraySplit s c.numBands) hmem
        rw [length_arraySplit] at this
        rw [hb]
        simpa using this
      rw [if_pos hmem, if_pos ⟨hmem, hjlt⟩]
      exact Finset.erase_insert (hbuck j k)
    · rw [if_neg hmem, if_neg (fun hc => hmem hc.1)]

/-- C2 (witness): the amended statement at a concrete input. -/
theorem C2_amended_witness :
    ∃ c', removeId (addFingerprint (mkCache 2) [4, 9] 7) 7 [4, 9] = .ok c' ∧
      c'.fingerprints = (mkCache 2).fingerprints ∧
      c'.bins.length = (mkCache 2).bins.length ∧
      ∀ j k, dGet (getBin c'.bins j) k = dGet (getBin (mkCache 2).bins j) k :=
  C2_amended (mkCache 2) [4, 9] 7 (by decide) (by decide)
    (fun j k => mkCache_bucket_empty 2 7 j k)

/-! ## Claim C4 -/

/-- C4: `add_fingerprint_strict_dedup` always records the fingerprint in the
store (as a permutation of the input, since the shuffle is in place); the
collision flag is set exactly when some bucket addressed by the check pass
already holds at least one id; if it is set, no bucket of any band gains the
new id; if it is not, the id is inserted into the addressed bucket of every
one of the `num_bands` bands (of the insert pass's own re-banding). -/
theorem C4_strict_dedup (c : Cache) (fp s1 s2 : List Nat) (did : Nat)
    (h1 : s1.Perm fp) (h2 : s2.Perm fp)
    (hb : c.bins.length = c.numBands) :
    (strictCollides c s1 = true ↔
      ∃ p ∈ keysFrom 0 (arraySplit s1 c.numBands),
        (dGet (getBin c.bins p.1) p.2).Nonempty) ∧
    (∃ g, fpLookup (addFingerprintStrictDedup c s1 s2 did).fingerprints did = some g
      ∧ g.Perm fp) ∧
    (strictCollides c s1 = true →
      ∀ j k, dGet (getBin (addFingerprintStrictDedup c s1 s2 did).bins j) k
        = dGet (getBin c.bins j) k) ∧
    (strictCollides c s1 = false →
      ∀ j, j < c.numBands →
        did ∈ dGet (getBin (addFingerprintStrictDedup c s1 s2 did).bins j)
          (pyHashTuple ((arraySplit s2 c.numBands).getD j []))) := by
  refine ⟨checkPass_fst _ _ _, ?_, ?_, ?_⟩
  · by_cases hcol : (checkPass c.bins 0 (arraySplit s1 c.numBands)).1 = true
    · refine ⟨s1, ?_, h1⟩
      rw [strict_fingerprints, if_pos hcol, fpLookup_fpInsert]
      simp
    · refine ⟨s2, ?_, h2⟩
      rw [strict_fingerprints, if_neg hcol, fpLookup_fpInsert]
      simp
  · intro hcol j k
    have hcol' : (checkPass c.bins 0 (arraySplit s1 c.numBands)).1 = true := hcol
    rw [strict_bins, if_pos hcol']
    exact checkPass_snd_dGet _ _ _ _ _
  · intro hcol j hj
    have hcol' : ¬(checkPass c.bins 0 (arraySplit s1 c.numBands)).1 = true := by
      show ¬strictCollides c s1 = true
      rw [hcol]
      exact Bool.false_ne_true
    rw [strict_bins, if_neg hcol']
    have hj2 : j < (arraySplit s2 c.numBands).length := by
      rw [length_arraySplit]
      exact hj
    have hkey : (j, pyHashTuple ((arraySplit s2 c.numBands).getD j []))
        ∈ keysFrom 0 (arraySplit s2 c.numBands) := by
      simpa using mem_keysFrom_getD (arraySplit s2 c.numBands) 0 j hj2
    refine mem_insertPass_self _ _ _ _ _ _ hkey ?_
    rw [checkPass_snd_length, hb]
    exact hj

/-- C4 (witness): the statement at a concrete collision-free input. -/
theorem C4_strict_dedup_witness :
    (strictCollides (mkCache 2) [3, 8] = true ↔
      ∃ p ∈ keysFrom 0 (arraySplit [3, 8] (mkCache 2).numBands),
        (dGet (getBin (mkCache 2).bins p.1) p.2).Nonempty) ∧
    (∃ g, fpLookup (addFingerprintStrictDedup (mkCache 2) [3, 8] [3, 8] 5).fingerprints 5
      = some g ∧ g.Perm [3, 8]) ∧
    (strictCollides (mkCache 2) [3, 8] = true →
      ∀ j k, dGet (getBin (addFingerprintStrictDedup (mkCache 2) [3, 8] [3, 8] 5).bins j) k
        = dGet (getBin (mkCache 2).bins j) k) ∧
    (strictCollides (mkCache 2) [3, 8] = false →
      ∀ j, j < (mkCache 2).numBands →
        5 ∈ dGet (getBin (addFingerprintStrictDedup (mkCache 2) [3, 8] [3, 8] 5).bins j)
          (pyHashTuple ((arraySplit [3, 8] (mkCache 2).numBands).getD j []))) :=
  C4_strict_dedup (mkCache 2) [3, 8] [3, 8] [3, 8] 5 (List.Perm.refl _)
    (List.Perm.refl _) (by decide)

/-! ## Claim C5 -/

/-- C5: `add_fingerprint_lenient_dedup` counts colliding bands, stopping at the
fixed `collision_threshold` of 4 (the loop counter equals the number of
colliding bands capped at 4); the fingerprint is always stored (as the in-place
shuffle's permutation of the input); if fewer than 4 bands collide the id is
inserted into the addressed bucket of all `num_bands` bands, and if 4 or more
collide no bucket's membership changes. -/
theorem C5_lenient_dedup (c : Cache) (fp s1 s2 : List Nat) (did : Nat)
    (h1 : s1.Perm fp) (h2 : s2.Perm fp)
    (hb : c.bins.length = c.numBands) :
    lenientCount c s1 = min (bandCollisions c s1) 4 ∧
    (∃ g, fpLookup (addFingerprintLenientDedup c s1 s2 did).fingerprints did = some g
      ∧ g.Perm fp) ∧
    (bandCollisions c s1 < 4 →
      ∀ j, j < c.numBands →
        did ∈ dGet (getBin (addFingerprintLenientDedup c s1 s2 did).bins j)
          (pyHashTuple ((arraySplit s2 c.numBands).getD j []))) ∧
    (4 ≤ bandCollisions c s1 →
      ∀ j k, dGet (getBin (addFingerprintLenientDedup c s1 s2 did).bins j) k
        = dGet (getBin c.bins j) k) := by
  have hcnt : (countPass c.bins 0 0 (arraySplit s1 c.numBands)).1
      = min (bandCollisions c s1) 4 := by
    rw [countPass_fst _ _ _ _ (by omega), Nat.zero_add]
    rfl
  refine ⟨hcnt, ?_, ?_, ?_⟩
  · by_cases hcol : (countPass c.bins 0 0 (arraySplit s1 c.numBands)).1 < 4
    · refine ⟨s2, ?_, h2⟩
      rw [lenient_fingerprints, if_pos hcol, fpLookup_fpInsert]
      simp
    · refine ⟨s1, ?_, h1⟩
      rw [lenient_fingerprints, if_neg hcol, fpLookup_fpInsert]
      simp
  · intro h4 j hj
    have hcol : (countPass c.bins 0 0 (arraySplit s1 c.numBands)).1 < 4 := by
      rw [hcnt]
      omega
    rw [lenient_bins, if_pos hcol]
    have hj2 : j < (arraySplit s2 c.numBands).length := by
      rw [length_arraySplit]
      exact hj
    have hkey : (j, pyHashTuple ((arraySplit s2 c.numBands).getD j []))
        ∈ keysFrom 0 (arraySplit s2 c.numBands) := by
      simpa using mem_keysFrom_getD (arraySplit s2 c.numBands) 0 j hj2
    refine mem_insertPass_self _ _ _ _ _ _ hkey ?_
    rw [countPass_snd_length, hb]
    exact hj
  · intro h4 j k
    have hcol : ¬(countPass c.bins 0 0 (arraySplit s1 c.numBands)).1 < 4 := by
      rw [hcnt]
      omega
    rw [lenient_bins, if_neg hcol]
    exact countPass_snd_dGet _ _ _ _ _ _

/-- C5 (witness): the statement at a concrete input with no collisions. -/
theorem C5_lenient_dedup_witness :
    lenientCount (mkCache 2) [3, 8] = min (bandCollisions (mkCache 2) [3, 8]) 4 ∧
    (∃ g, fpLookup (addFingerprintLenientDedup (mkCache 2) [3, 8] [3, 8] 5).fingerprints 5
      = some g ∧ g.Perm [3, 8]) ∧
    (bandCollisions (mkCache 2) [3, 8] < 4 →
      ∀ j, j < (mkCache 2).numBands →
        5 ∈ dGet (getBin (addFingerprintLenientDedup (mkCache 2) [3, 8] [3, 8] 5).bins j)
          (pyHashTuple ((arraySplit [3, 8] (mkCache 2).numBands).getD j []))) ∧
    (4 ≤ bandCollisions (mkCache 2) [3, 8] →
      ∀ j k, dGet (getBin (addFingerprintLenientDedup (mkCache 2) [3, 8] [3, 8] 5).bins j) k
        = dGet (getBin (mkCache 2).bins j) k) :=
  C5_lenient_dedup (mkCache 2) [3, 8] [3, 8] [3, 8] 5 (List.Perm.refl _)
    (List.Perm.refl _) (by decide)

/-! ## Claim C6 -/

/-- C6 is false as stated: candidate pairs are ordered tuples produced by
`itertools.combinations` in the buckets' iteration order, and the `set` of
tuples only deduplicates identical orientations.  Under a legal enumeration
(realizable by CPython's open-addressing iteration order, which depends on the
other elements of each set) a bucket `{0, 8}` in one band yields `(0, 8)` while
a bucket `{0, 1, 8}` in another band yields `(8, 0)`: the same unordered pair
appears twice, once per orientation. -/
theorem C6_counterexample :
    (0, 8) ∈ getAllDuplicates cacheTwoBuckets ordCex ∧
    (8, 0) ∈ getAllDuplicates cacheTwoBuckets ordCex := by
  refine ⟨by decide, by decide⟩

/-- C6 (amended): `get_all_duplicates()` returns ordered candidate pairs whose
unordered readings are exactly the pairs of distinct ids sharing some bucket
(of any band); a pair may however appear in both orientations when different
buckets enumerate the two ids in opposite relative order. -/
theorem C6_all_duplicates (c : Cache) (ord : Finset Nat → List Nat)
    (hord : ∀ s : Finset Nat, (ord s).Nodup ∧ ∀ x : Nat, x ∈ ord s ↔ x ∈ s)
    (x y : Nat) :
    ((x, y) ∈ getAllDuplicates c ord ∨ (y, x) ∈ getAllDuplicates c ord) ↔
      (x ≠ y ∧ ∃ b ∈ c.bins, ∃ kv ∈ b, x ∈ kv.2 ∧ y ∈ kv.2) := by
  have hmem : ∀ u v : Nat, (u, v) ∈ getAllDuplicates c ord ↔
      ∃ b ∈ c.bins, ∃ kv ∈ b, 1 < kv.2.card ∧ (u, v) ∈ pairs2 (ord kv.2) := by
    intro u v
    rw [getAllDuplicates, mem_foldl_union]
    simp only [Finset.not_mem_empty, false_or]
    constructor
    · rintro ⟨b, hbmem, hb⟩
      rw [bucketPairs, mem_foldl_union] at hb
      simp only [Finset.not_mem_empty, false_or] at hb
      obtain ⟨kv, hkv, hx⟩ := hb
      by_cases hc : 1 < kv.2.card
      · rw [if_pos hc] at hx
        exact ⟨b, hbmem, kv, hkv, hc, by simpa using hx⟩
      · rw [if_neg hc] at hx
        simp at hx
    · rintro ⟨b, hbmem, kv, hkv, hc, hp⟩
      refine ⟨b, hbmem, ?_⟩
      rw [bucketPairs, mem_foldl_union]
      refine Or.inr ⟨kv, hkv, ?_⟩
      rw [if_pos hc]
      simpa using hp
  constructor
  · rintro (h | h) <;> rw [hmem] at h <;> obtain ⟨b, hbmem, kv, hkv, _, hp⟩ := h
    · have hne := pairs2_ne _ (hord kv.2).1 _ _ hp
      obtain ⟨hx, hy⟩ := mem_pairs2 _ _ _ hp
      exact ⟨hne, b, hbmem, kv, hkv, ((hord kv.2).2 x).mp hx, ((hord kv.2).2 y).mp hy⟩
    · have hne := pairs2_ne _ (hord kv.2).1 _ _ hp
      obtain ⟨hy, hx⟩ := mem_pairs2 _ _ _ hp
      exact ⟨fun hxy => hne hxy.symm, b, hbmem, kv, hkv,
        ((hord kv.2).2 x).mp hx, ((hord kv.2).2 y).mp hy⟩
  · rintro ⟨hxy, b, hbmem, kv, hkv, hx, hy⟩
    have hc : 1 < kv.2.card := Finset.one_lt_card.mpr ⟨x, hx, y, hy, hxy⟩
    have hx' : x ∈ ord kv.2 := ((hord kv.2).2 x).mpr hx
    have hy' : y ∈ ord kv.2 := ((hord kv.2).2 y).mpr hy
    rcases pairs2_total _ _ _ hx' hy' hxy with hp | hp
    · exact Or.inl ((hmem x y).mpr ⟨b, hbmem, kv, hkv, hc, hp⟩)
    · exact Or.inr ((hmem y x).mpr ⟨b, hbmem, kv, hkv, hc, hp⟩)

/-- C6 (witness): the amended statement at a concrete input, under the
ascending enumeration order. -/
theorem C6_all_duplicates_witness :
    ((1, 2) ∈ getAllDuplicates cacheOneBucket ordAsc ∨
      (2, 1) ∈ getAllDuplicates cacheOneBucket ordAsc) ↔
      (1 ≠ 2 ∧ ∃ b ∈ cacheOneBucket.bins, ∃ kv ∈ b, 1 ∈ kv.2 ∧ 2 ∈ kv.2) :=
  C6_all_duplicates cacheOneBucket ordAsc ordAsc_spec 1 2

/-! ## Claim C8 -/

/-- C8 is false as stated: when a bucket addressed during removal does not
contain the id, `set.remove` raises an uncaught `KeyError` and the operation
aborts.  With two bands, id 0 stored with fingerprint `[1, 2]` and present only
in band 1's bucket, `remove_id(0)` fails at band 0 and afterwards id 0 is
still in the store AND still in band 1's bucket: the remaining removal steps
did not complete, contradicting the claimed warn-and-continue behavior. -/
theorem C8_counterexample :
    (removeErrState (removeId cacheHalfRemoved 0 [1, 2])).map
      (fun st => (fpLookup st.fingerprints 0,
        decide (0 ∈ dGet (getBin st.bins 1) (pyHashTuple [2]))))
      = some (some [1, 2], true) := by
  decide

/-- C8 (amended): when removal addresses a bucket that does not contain the id,
`remove_id` raises immediately (returns the error state): the id is still in
the Fingerprint Store afterwards — with the re-shuffled fingerprint — because
the deletion step never runs; the removal does not warn-and-continue. -/
theorem C8_remove_error_keeps_store (c : Cache) (did : Nat) (s f : List Nat)
    (hf : fpLookup c.fingerprints did = some f) :
    ∀ st, removeId c did s = .error st →
      fpLookup st.fingerprints did = some s := by
  intro st herr
  simp only [removeId, hf] at herr
  cases hrl : removeLoop did c.bins 0 (arraySplit s c.numBands) with
  | ok bs =>
    rw [hrl] at herr
    simp at herr
  | error bs =>
    rw [hrl] at herr
    simp only [Except.error.injEq] at herr
    rw [← herr]
    show fpLookup (fpInsert c.fingerprints did s) did = some s
    rw [fpLookup_fpInsert]
    simp

/-- C8 (witness): the amended statement at a concrete input where the removal
does fail (the only band's bucket is empty). -/
theorem C8_remove_error_keeps_store_witness :
    fpLookup cacheDangling.fingerprints 0 = some [1] ∧
    (removeErrState (removeId cacheDangling 0 [1])).isSome = true ∧
    (∀ st, removeId cacheDangling 0 [1] = .error st →
      fpLookup st.fingerprints 0 = some [1]) :=
  ⟨by decide, by decide,
    C8_remove_error_keeps_store cacheDangling 0 [1] [1] (by decide)⟩

/-! ## Claim C10 -/

/-- C10 is false as stated: `get_duplicates_of(doc_id=...)` mutates the index.
The in-place query shuffle rewrites the stored fingerprint (here from `[1, 2]`
to `[2, 1]`), and the `defaultdict` bucket lookups insert an empty bucket for
the previously missing key, growing band 0's table from one key to two. -/
theorem C10_counterexample :
    ([2, 1] : List Nat).Perm [1, 2] ∧
    fpLookup (addFingerprint (mkCache 1) [1, 2] 0).fingerprints 0 = some [1, 2] ∧
    (getBin (addFingerprint (mkCache 1) [1, 2] 0).bins 0).length = 1 ∧
    (getDuplicatesOfById (addFingerprint (mkCache 1) [1, 2] 0) 0 [2, 1]).map
      (fun p => (fpLookup p.2.fingerprints 0, (getBin p.2.bins 0).length))
      = some (some [2, 1], 2) := by
  refine ⟨by decide, by decide, by decide, by decide⟩

/-- C10 (amended): the by-id query leaves every bucket's membership unchanged
(and the table list's length unchanged) and every other document's stored
fingerprint unchanged, but it rewrites the queried document's store entry with
the query-time shuffle of its fingerprint, and the `defaultdict` accesses may
add empty bucket entries; `get_all_duplicates` performs no writes at all (it is
a pure function of the state in this embedding). -/
theorem C10_query_effects (c : Cache) (did : Nat) (s f : List Nat)
    (hf : fpLookup c.fingerprints did = some f) :
    getDuplicatesOfById c did s = some (candsOfById c did s, stateOfById c did s) ∧
    (∀ j k, dGet (getBin (stateOfById c did s).bins j) k = dGet (getBin c.bins j) k) ∧
    (stateOfById c did s).bins.length = c.bins.length ∧
    (∀ z, z ≠ did → fpLookup (stateOfById c did s).fingerprints z
      = fpLookup c.fingerprints z) ∧
    fpLookup (stateOfById c did s).fingerprints did = some s := by
  have hid : (fpLookup c.fingerprints did).isSome = true := by
    rw [hf]
    rfl
  have hst : stateOfById c did s =
      { bins := (queryPass c.bins 0 ∅ (arraySplit s c.numBands)).2,
        numBands := c.numBands,
        fingerprints := fpInsert c.fingerprints did s, memo := c.memo } := by
    rw [stateOfById]
    simp only [getDuplicatesOfById, hf, Option.map_some', Option.getD_some]
  refine ⟨getDuplicatesOfById_eq c did s hid, ?_, ?_, ?_, ?_⟩
  · intro j k
    rw [hst]
    exact queryPass_snd_dGet _ _ _ _ _ _
  · rw [hst]
    exact queryPass_snd_length _ _ _ _
  · intro z hz
    rw [hst]
    show fpLookup (fpInsert c.fingerprints did s) z = fpLookup c.fingerprints z
    rw [fpLookup_fpInsert, if_neg (fun h => hz h.symm)]
  · rw [hst]
    show fpLookup (fpInsert c.fingerprints did s) did = some s
    rw [fpLookup_fpInsert]
    simp

/-- C10 (witness): the amended statement at a concrete input. -/
theorem C10_query_effects_witness :
    getDuplicatesOfById (addFingerprint (mkCache 1) [1, 2] 0) 0 [2, 1] =
      some (candsOfById (addFingerprint (mkCache 1) [1, 2] 0) 0 [2, 1],
        stateOfById (addFingerprint (mkCache 1) [1, 2] 0) 0 [2, 1]) ∧
    (∀ j k, dGet (getBin (stateOfById (addFingerprint (mkCache 1) [1, 2] 0) 0 [2, 1]).bins j) k
      = dGet (getBin (addFingerprint (mkCache 1) [1, 2] 0).bins j) k) ∧
    (stateOfById (addFingerprint (mkCache 1) [1, 2] 0) 0 [2, 1]).bins.length
      = (addFingerprint (mkCache 1) [1, 2] 0).bins.length ∧
    (∀ z, z ≠ 0 → fpLookup (stateOfById (addFingerprint (mkCache 1) [1, 2] 0) 0 [2, 1]).fingerprints z
      = fpLookup (addFingerprint (mkCache 1) [1, 2] 0).fingerprints z) ∧
    fpLookup (stateOfById (addFingerprint (mkCache 1) [1, 2] 0) 0 [2, 1]).fingerprints 0
      = some [2, 1] :=
  C10_query_effects (addFingerprint (mkCache 1) [1, 2] 0) 0 [2, 1] [1, 2] (by decide)

/-! ## Claim C7 -/

theorem filterCandidatesGo_ok (jac : List Nat → List Nat → ℚ) (t : ℚ)
    (st : FpStore) (pairs : List (Nat × Nat)) (acc : Finset (Nat × Nat))
    (hps : ∀ p ∈ pairs, (fpLookup st p.1).isSome = true
      ∧ (fpLookup st p.2).isSome = true) :
    ∃ R, filterCandidatesGo jac t st pairs acc = .ok R ∧
      ∀ a b : Nat, (a, b) ∈ R ↔ (a, b) ∈ acc ∨ ((a, b) ∈ pairs
        ∧ t < jac ((fpLookup st a).getD []) ((fpLookup st b).getD [])) := by
  induction pairs generalizing acc with
  | nil => exact ⟨acc, rfl, by simp⟩
  | cons p rest ih =>
    obtain ⟨a0, b0⟩ := p
    obtain ⟨ha0, hb0⟩ := hps (a0, b0) (List.mem_cons_self _ _)
    cases hfa : fpLookup st a0 with
    | none => rw [hfa] at ha0; simp at ha0
    | some fa =>
      cases hfb : fpLookup st b0 with
      | none => rw [hfb] at hb0; simp at hb0
      | some fb =>
        obtain ⟨R, hR, hmem⟩ :=
          ih (if t < jac fa fb then insert (a0, b0) acc else acc)
            (fun p hp => hps p (List.mem_cons_of_mem _ hp))
        refine ⟨R, ?_, fun a b => ?_⟩
        · rw [filterCandidatesGo, hfa, hfb]
          exact hR
        · rw [hmem a b]
          simp only [List.mem_cons, Prod.mk.injEq]
          by_cases hj : t < jac fa fb
          · rw [if_pos hj]
            simp only [Finset.mem_insert, Prod.mk.injEq]
            constructor
            · rintro ((⟨rfl, rfl⟩ | hacc) | ⟨hrest, hlt⟩)
              · refine Or.inr ⟨Or.inl ⟨rfl, rfl⟩, ?_⟩
                rw [hfa, hfb]
                simpa using hj
              · exact Or.inl hacc
              · exact Or.inr ⟨Or.inr hrest, hlt⟩
            · rintro (hacc | ⟨⟨rfl, rfl⟩ | hrest, hlt⟩)
              · exact Or.inl (Or.inr hacc)
              · exact Or.inl (Or.inl ⟨rfl, rfl⟩)
              · exact Or.inr ⟨hrest, hlt⟩
          · rw [if_neg hj]
            constructor
            · rintro (hacc | ⟨hrest, hlt⟩)
              · exact Or.inl hacc
              · exact Or.inr ⟨Or.inr hrest, hlt⟩
            · rintro (hacc | ⟨⟨rfl, rfl⟩ | hrest, hlt⟩)
              · exact Or.inl hacc
              · rw [hfa, hfb] at hlt
                simp only [Option.getD_some] at hlt
                exact absurd hlt hj
              · exact Or.inr ⟨hrest, hlt⟩

/-- C7: similarity filtering keeps exactly the candidates whose estimated
Jaccard similarity strictly exceeds the threshold.  `get_duplicates_of` with
`min_jaccard` returns exactly the banded candidates whose similarity to the
(as-banded) query fingerprint strictly exceeds it, and `filter_candidates`
returns exactly the input pairs whose stored fingerprints' similarity strictly
exceeds it; candidates at exactly the threshold are dropped in both. -/
theorem C7_jaccard_filter (c : Cache) (did : Nat) (s : List Nat)
    (jac : List Nat → List Nat → ℚ) (t : ℚ) (pairs : List (Nat × Nat))
    (hid : (fpLookup c.fingerprints did).isSome = true)
    (hall : ∀ z ∈ candsOfById c did s,
      (fpLookup (stateOfById c did s).fingerprints z).isSome = true)
    (hps : ∀ p ∈ pairs, (fpLookup c.fingerprints p.1).isSome = true
      ∧ (fpLookup c.fingerprints p.2).isSome = true) :
    (getDuplicatesOfByIdMinJ c did s jac t =
      some (.ok ((candsOfById c did s).filter
        (fun z => t < jac s ((fpLookup (stateOfById c did s).fingerprints z).getD []))),
        stateOfById c did s)) ∧
    (∀ z, z ∈ (candsOfById c did s).filter
        (fun z => t < jac s ((fpLookup (stateOfById c did s).fingerprints z).getD []))
      ↔ z ∈ candsOfById c did s
        ∧ t < jac s ((fpLookup (stateOfById c did s).fingerprints z).getD [])) ∧
    (∃ R, filterCandidates c jac t pairs = .ok R ∧
      ∀ a b : Nat, (a, b) ∈ R ↔ (a, b) ∈ pairs
        ∧ t < jac ((fpLookup c.fingerprints a).getD [])
            ((fpLookup c.fingerprints b).getD [])) := by
  refine ⟨?_, fun z => Finset.mem_filter, ?_⟩
  · rw [getDuplicatesOfByIdMinJ, getDuplicatesOfById_eq c did s hid]
    show some (filterByJaccard jac t (stateOfById c did s).fingerprints s
      (candsOfById c did s), stateOfById c did s) = _
    unfold filterByJaccard
    rw [if_pos hall]
  · obtain ⟨R, hR, hmem⟩ := filterCandidatesGo_ok jac t c.fingerprints pairs ∅ hps
    refine ⟨R, hR, fun a b => ?_⟩
    rw [hmem a b]
    simp

/-- C7 (witness): the statement at a concrete input with one stored document,
a constant similarity estimator and threshold one half. -/
theorem C7_jaccard_filter_witness :
    (getDuplicatesOfByIdMinJ (addFingerprint (mkCache 1) [1, 2] 0) 0 [1, 2]
        (fun _ _ => 1) (1 / 2) =
      some (.ok ((candsOfById (addFingerprint (mkCache 1) [1, 2] 0) 0 [1, 2]).filter
        (fun z => (1 : ℚ) / 2 < (fun _ _ => 1) [1, 2]
          ((fpLookup (stateOfById (addFingerprint (mkCache 1) [1, 2] 0) 0 [1, 2]).fingerprints z).getD []))),
        stateOfById (addFingerprint (mkCache 1) [1, 2] 0) 0 [1, 2])) ∧
    (∀ z, z ∈ (candsOfById (addFingerprint (mkCache 1) [1, 2] 0) 0 [1, 2]).filter
        (fun z => (1 : ℚ) / 2 < (fun _ _ => 1) [1, 2]
          ((fpLookup (stateOfById (addFingerprint (mkCache 1) [1, 2] 0) 0 [1, 2]).fingerprints z).getD []))
      ↔ z ∈ candsOfById (addFingerprint (mkCache 1) [1, 2] 0) 0 [1, 2]
        ∧ (1 : ℚ) / 2 < (fun _ _ => 1) [1, 2]
          ((fpLookup (stateOfById (addFingerprint (mkCache 1) [1, 2] 0) 0 [1, 2]).fingerprints z).getD [])) ∧
    (∃ R, filterCandidates (addFingerprint (mkCache 1) [1, 2] 0)
        (fun _ _ => 1) (1 / 2) [(0, 0)] = .ok R ∧
      ∀ a b : Nat, (a, b) ∈ R ↔ (a, b) ∈ [(0, 0)]
        ∧ (1 : ℚ) / 2 < (fun _ _ => (1 : ℚ))
            ((fpLookup (addFingerprint (mkCache 1) [1, 2] 0).fingerprints a).getD [])
            ((fpLookup (addFingerprint (mkCache 1) [1, 2] 0).fingerprints b).getD [])) :=
  C7_jaccard_filter (addFingerprint (mkCache 1) [1, 2] 0) 0 [1, 2]
    (fun _ _ => 1) (1 / 2) [(0, 0)] (by decide) (by decide) (by decide)

end LSH
